import Mathlib

/-!
Shallow embedding of the snapshot automount registry and expiry scheduler of
`module/os/linux/zfs/zfs_ctldir.c`.

The C code keeps every automounted snapshot in a `zfs_snapentry_t` that is
linked into two AVL trees (`zfs_snapshots_by_name`, keyed by the full
snapshot name, and `zfs_snapshots_by_objsetid`, keyed by `(se_spa,
se_objsetid)`), protected by the single `zfs_snapshot_lock`.  Entries are
reference counted (`se_refcount`); registry membership holds one reference.
A per-entry delayed task (`se_taskqid`, guarded by `se_taskqid_lock`)
unmounts the snapshot after `zfs_expire_snapshot` seconds.

The embedding models the heap of allocated entries as an association list
from an allocation identity (a `Nat`, standing for the `zfs_snapentry_t *`
pointer) to the entry record, and each AVL tree as the list of entry
identities it links (`avl_add` prepends, `avl_remove` erases; the AVL
ordering is irrelevant for membership and for `avl_find`, which locates the
unique element whose key compares equal).  Locks disappear: every public
operation of the C code runs its critical sections under the registry
rwlock, so a state-transformer per operation is the sequential semantics of
the lock-linearized code.
-/

namespace ZfsCtl

/-- `errno` values used by the code. -/
def ENOENT : Nat := 2
/-- `errno` value the unmount path converts helper failures to. -/
def EBUSY : Nat := 16

/-- Allocation identity of a `zfs_snapentry_t` (stands for the pointer). -/
abbrev EId := Nat

/-- The fields of `zfs_snapentry_t` relevant to the registry
(`se_root_dentry` and the lock fields are opaque handles; `se_taskqid` is
modelled in the scheduler component).  `holders` is ghost accounting: the
number of references currently held by callers other than the registry
itself (`zfs_refcount_t` tracks only the total in `se_refcount`). -/
structure EntryRec where
  se_name : String
  se_path : String
  se_spa : Nat
  se_objsetid : Nat
  se_refcount : Nat
  holders : Nat
  deriving Repr, DecidableEq

/-- Heap of currently allocated entries, keyed by allocation identity. -/
abbrev Heap := List (EId × EntryRec)

/-- Look up an allocated entry. -/
def hlookup (h : Heap) (i : EId) : Option EntryRec :=
  match h with
  | [] => none
  | (j, e) :: t => if j = i then some e else hlookup t i

/-- Replace the record bound to `i` (no-op if `i` is unallocated). -/
def hupdate (h : Heap) (i : EId) (e : EntryRec) : Heap :=
  match h with
  | [] => []
  | (j, e0) :: t => if j = i then (j, e) :: t else (j, e0) :: hupdate t i e

/-- Free the entry bound to `i`. -/
def herase (h : Heap) (i : EId) : Heap :=
  match h with
  | [] => []
  | (j, e0) :: t => if j = i then t else (j, e0) :: herase t i

/-- Global registry state: the heap plus the two AVL trees (as the lists of
entry identities they link) and the allocator counter. -/
structure RState where
  heap : Heap
  byName : List EId
  byObjsetid : List EId
  nextId : EId
  deriving Repr, DecidableEq

/-- The empty registry (`zfs_snapshots_by_name` / `_by_objsetid` after
`zfsctl_init`). -/
def rinit : RState := { heap := [], byName := [], byObjsetid := [], nextId := 0 }

/-- `zfsctl_snapshot_hold`: take a reference.  `fromHolder` is ghost: it
records whether the reference is taken on behalf of an outside caller (a
`find_by_*` result) rather than for registry membership. -/
def zfsctl_snapshot_hold (st : RState) (i : EId) (fromHolder : Bool) : RState :=
  match hlookup st.heap i with
  | none => st
  | some e =>
      let e1 : EntryRec :=
        { e with se_refcount := e.se_refcount + 1,
                 holders := if fromHolder then e.holders + 1 else e.holders }
      { st with heap := hupdate st.heap i e1 }

/-- `zfsctl_snapshot_rele`: drop a reference; when the count reaches zero the
entry is freed (`zfsctl_snapshot_free`). -/
def zfsctl_snapshot_rele (st : RState) (i : EId) (fromHolder : Bool) : RState :=
  match hlookup st.heap i with
  | none => st
  | some e =>
      if e.se_refcount - 1 = 0 then { st with heap := herase st.heap i }
      else
        let e1 : EntryRec :=
          { e with se_refcount := e.se_refcount - 1,
                   holders := if fromHolder then e.holders - 1 else e.holders }
        { st with heap := hupdate st.heap i e1 }

/-- `zfsctl_snapshot_add`: hold a reference for registry membership and link
the entry into both trees (`avl_add` on each). -/
def zfsctl_snapshot_add (st : RState) (i : EId) : RState :=
  let st1 := zfsctl_snapshot_hold st i false
  { st1 with byName := i :: st1.byName, byObjsetid := i :: st1.byObjsetid }

/-- `zfsctl_snapshot_remove`: unlink the entry from both trees
(`avl_remove` on each) and drop the registry's reference. -/
def zfsctl_snapshot_remove (st : RState) (i : EId) : RState :=
  zfsctl_snapshot_rele
    { st with byName := st.byName.erase i, byObjsetid := st.byObjsetid.erase i }
    i false

/-- `avl_find` on `zfs_snapshots_by_name`: the element of the tree whose
`se_name` compares equal to `n` (`snapentry_compare_by_name`). -/
def findIdIn (h : Heap) (ids : List EId) (n : String) : Option EId :=
  match ids with
  | [] => none
  | i :: t =>
      match hlookup h i with
      | some e => if e.se_name = n then some i else findIdIn h t n
      | none => findIdIn h t n

/-- `avl_find` on `zfs_snapshots_by_objsetid`: the element whose
`(se_spa, se_objsetid)` compares equal (`snapentry_compare_by_objsetid`). -/
def findIdObjIn (h : Heap) (ids : List EId) (spa objsetid : Nat) : Option EId :=
  match ids with
  | [] => none
  | i :: t =>
      match hlookup h i with
      | some e =>
          if e.se_spa = spa ∧ e.se_objsetid = objsetid then some i
          else findIdObjIn h t spa objsetid
      | none => findIdObjIn h t spa objsetid

/-- The lookup step of `zfsctl_snapshot_find_by_name` (before the hold). -/
def findIdByName (st : RState) (n : String) : Option EId :=
  findIdIn st.heap st.byName n

/-- The lookup step of `zfsctl_snapshot_find_by_objsetid`. -/
def findIdByObjsetid (st : RState) (spa objsetid : Nat) : Option EId :=
  findIdObjIn st.heap st.byObjsetid spa objsetid

/-- `zfsctl_snapshot_find_by_name`: locate by name and take a reference for
the caller. -/
def zfsctl_snapshot_find_by_name (st : RState) (n : String) :
    Option EId × RState :=
  match findIdByName st n with
  | none => (none, st)
  | some i => (some i, zfsctl_snapshot_hold st i true)

/-- `zfsctl_snapshot_find_by_objsetid`: locate by `(spa, objsetid)` and take
a reference for the caller. -/
def zfsctl_snapshot_find_by_objsetid (st : RState) (spa objsetid : Nat) :
    Option EId × RState :=
  match findIdByObjsetid st spa objsetid with
  | none => (none, st)
  | some i => (some i, zfsctl_snapshot_hold st i true)

/-- `zfsctl_snapshot_rename`: locate by the old name (taking a reference),
remove from both trees, overwrite `se_name`, re-add to both trees, drop the
lookup's reference.  Returns `ENOENT` when the old name is absent. -/
def zfsctl_snapshot_rename (st : RState) (old_snapname new_snapname : String) :
    Nat × RState :=
  match findIdByName st old_snapname with
  | none => (ENOENT, st)
  | some i =>
      let st1 := zfsctl_snapshot_hold st i true
      let st2 := zfsctl_snapshot_remove st1 i
      let st3 :=
        match hlookup st2.heap i with
        | none => st2
        | some e => { st2 with heap := hupdate st2.heap i ({ e with se_name := new_snapname }) }
      let st4 := zfsctl_snapshot_add st3 i
      (0, zfsctl_snapshot_rele st4 i true)

/-- `zfsctl_snapshot_unmount`: look the entry up by name (`ENOENT` when
absent), invoke the external `umount` helper (its exit status is the oracle
`helperStatus`), drop the lookup reference, and convert any nonzero helper
status to `EBUSY`. -/
def zfsctl_snapshot_unmount (st : RState) (snapname : String)
    (helperStatus : Nat) : Nat × RState :=
  match findIdByName st snapname with
  | none => (ENOENT, st)
  | some i =>
      let st1 := zfsctl_snapshot_hold st i true
      let st2 := zfsctl_snapshot_rele st1 i true
      (if helperStatus = 0 then 0 else EBUSY, st2)

/-- The tail of `zfsctl_snapdir_remove`: run the unmount, and invoke
`dsl_destroy_snapshot` (exit status oracle `destroyErr`) exactly when the
unmount returned `0` or `ENOENT`.  Result: final error, whether the destroy
was invoked, and the registry state. -/
def zfsctl_snapdir_remove_tail (st : RState) (snapname : String)
    (helperStatus destroyErr : Nat) : Nat × Bool × RState :=
  let r := zfsctl_snapshot_unmount st snapname helperStatus
  if r.1 = 0 ∨ r.1 = ENOENT then (destroyErr, true, r.2) else (r.1, false, r.2)

/-- Names of all registered entries (keys of `zfs_snapshots_by_name`). -/
def registeredNames (st : RState) : List String :=
  st.byName.filterMap (fun i => (hlookup st.heap i).map EntryRec.se_name)

/-- Registry operations available to callers of this component, as invoked
by the code: `mount` is the registration step of `zfsctl_snapshot_mount`
(allocate a fresh entry, `zfsctl_snapshot_add` it); `destroy` is the removal
pattern of `zfsctl_destroy` (find by objsetid, remove, drop the lookup
reference); `find`/`findObj` acquire a reference the caller keeps; `drop`
releases one such reference; `rename` is `zfsctl_snapshot_rename`. -/
inductive ROp where
  | mount (name path : String) (spa objsetid : Nat)
  | destroy (spa objsetid : Nat)
  | find (name : String)
  | findObj (spa objsetid : Nat)
  | drop (i : EId)
  | rename (a b : String)
  deriving Repr, DecidableEq

/-- Guard for `mount`: `avl_add` requires that neither key is already
present (a duplicate insert is a fatal assertion in the C code, a caller
invariant the mount path establishes by its `zfsctl_snapshot_ismounted`
check). -/
def mountOk (st : RState) (name : String) (spa objsetid : Nat) : Prop :=
  findIdByName st name = none ∧ findIdByObjsetid st spa objsetid = none

instance (st : RState) (name : String) (spa objsetid : Nat) :
    Decidable (mountOk st name spa objsetid) := by
  unfold mountOk; infer_instance

/-- Guard for `rename`: re-adding under `new_snapname` must not collide with
a different registered entry (again a fatal `avl_add` assertion otherwise). -/
def renameOk (st : RState) (a b : String) : Prop :=
  ∀ i ∈ st.byName, ∀ e, hlookup st.heap i = some e →
    e.se_name ≠ a → e.se_name ≠ b

instance (st : RState) (a b : String) : Decidable (renameOk st a b) := by
  unfold renameOk; infer_instance

/-- Guard for `drop`: a caller may only release a reference it holds. -/
def dropOk (st : RState) (i : EId) : Prop :=
  ∃ e, hlookup st.heap i = some e ∧ 1 ≤ e.holders

instance (st : RState) (i : EId) : Decidable (dropOk st i) := by
  unfold dropOk; infer_instance

/-- One registry operation (guarded: an operation whose C-level precondition
fails leaves the state unchanged — in the C code those cases are fatal
assertions or are never invoked). -/
def rstep (st : RState) (op : ROp) : RState :=
  match op with
  | .mount name path spa objsetid =>
      if mountOk st name spa objsetid then
        let i := st.nextId
        let st1 := { st with
          heap := (i, { se_name := name, se_path := path, se_spa := spa,
                        se_objsetid := objsetid, se_refcount := 0,
                        holders := 0 }) :: st.heap,
          nextId := i + 1 }
        zfsctl_snapshot_add st1 i
      else st
  | .destroy spa objsetid =>
      match findIdByObjsetid st spa objsetid with
      | none => st
      | some i =>
          let st1 := zfsctl_snapshot_hold st i true
          let st2 := zfsctl_snapshot_remove st1 i
          zfsctl_snapshot_rele st2 i true
  | .find name => (zfsctl_snapshot_find_by_name st name).2
  | .findObj spa objsetid => (zfsctl_snapshot_find_by_objsetid st spa objsetid).2
  | .drop i => if dropOk st i then zfsctl_snapshot_rele st i true else st
  | .rename a b => if renameOk st a b then (zfsctl_snapshot_rename st a b).2 else st

/-- Run a sequence of registry operations from a starting state. -/
def rrun (st : RState) (ops : List ROp) : RState :=
  match ops with
  | [] => st
  | op :: t => rrun (rstep st op) t

/-!
Delayed expiry scheduler, per entry (`se_taskqid` / `se_taskqid_lock` /
`system_delay_taskq`).  `pending` models the delayed tasks currently sitting
in `system_delay_taskq` for this entry, as `(taskqid, delay)` pairs;
`taskq_dispatch_delay` appends a fresh id, `taskq_cancel_id` removes by id.
`se_taskqid = none` stands for `TASKQID_INVALID`.  `registered` abstracts
"the entry is linked in the registry trees" (what
`zfsctl_snapshot_find_by_objsetid` checks); `removed`-on-successful-unmount
is the `zfsctl_destroy` path that runs when the helper really unmounts the
snapshot.  `se_refcount` counts as in the registry model (the registry's
reference plus one per outstanding task or holder).
-/

/-- Per-entry scheduler state. -/
structure SEntry where
  se_taskqid : Option Nat
  se_refcount : Nat
  registered : Bool
  pending : List (Nat × Int)
  nextTaskId : Nat
  deriving Repr, DecidableEq

/-- State of an entry right after `zfsctl_snapshot_mount` registered it and
before any expiry task is armed: held once (by the registry), no task. -/
def sinit : SEntry :=
  { se_taskqid := none, se_refcount := 1, registered := true,
    pending := [], nextTaskId := 0 }

/-- `zfsctl_snapshot_hold` on the scheduler's view of the entry. -/
def sHold (s : SEntry) : SEntry := { s with se_refcount := s.se_refcount + 1 }

/-- `zfsctl_snapshot_rele` on the scheduler's view (deallocation at zero is
covered by the registry model; here the count just drops). -/
def sRele (s : SEntry) : SEntry := { s with se_refcount := s.se_refcount - 1 }

/-- `zfsctl_snapshot_unmount_delay_impl`: no-op for `delay <= 0`; otherwise
hold the entry, and — under `se_taskqid_lock` — if a task is already
recorded, release the just-taken hold and return; else dispatch a delayed
task and record its id. -/
def zfsctl_snapshot_unmount_delay_impl (s : SEntry) (delay : Int) : SEntry :=
  if delay ≤ 0 then s
  else
    let s1 := sHold s
    match s1.se_taskqid with
    | some _ => sRele s1
    | none =>
        { s1 with se_taskqid := some s1.nextTaskId,
                  pending := s1.pending ++ [(s1.nextTaskId, delay)],
                  nextTaskId := s1.nextTaskId + 1 }

/-- `taskq_cancel_id system_delay_taskq se_taskqid`: remove the identified
task from the queue if it is still there (result `0`); `ENOENT` when the id
is `TASKQID_INVALID` or the task is no longer queued (already ran).  (The
`EBUSY` mid-flight outcome of the real taskq cannot arise in this
sequential model, where a dispatched callback runs atomically; the C code
treats it exactly like `ENOENT`: no release.) -/
def taskq_cancel_id (s : SEntry) : SEntry × Nat :=
  match s.se_taskqid with
  | none => (s, ENOENT)
  | some t =>
      if t ∈ s.pending.map Prod.fst then
        ({ s with pending := s.pending.filter (fun p => p.1 ≠ t) }, 0)
      else (s, ENOENT)

/-- `zfsctl_snapshot_unmount_cancel`: under `se_taskqid_lock`, try to cancel
the recorded task, unconditionally clear `se_taskqid`, and release the
task's reference only when the cancel succeeded (`err == 0`). -/
def zfsctl_snapshot_unmount_cancel (s : SEntry) : SEntry :=
  let r := taskq_cancel_id s
  let s2 := { r.1 with se_taskqid := none }
  if r.2 = 0 then sRele s2 else s2

/-- `snapentry_expire` (the dispatched callback), with the helper outcome as
the oracle `busy`.  If the global `expire` tunable has been disabled the
callback just drops its reference.  Otherwise it clears `se_taskqid`, calls
`zfsctl_snapshot_unmount` — on helper success the resulting VFS unmount
runs `zfsctl_destroy`, which removes the entry from the registry and drops
the registry's reference; on failure (`busy`) the entry stays registered —
drops the task's reference, and re-arms itself when the entry is still
found by `(spa, objsetid)`.  The unmount's error is discarded (`(void)`). -/
def snapentry_expire (expire : Int) (busy : Bool) (s : SEntry) : SEntry :=
  if expire ≤ 0 then sRele s
  else
    let s1 := { s with se_taskqid := none }
    let s2 := if busy then s1 else sRele { s1 with registered := false }
    let s3 := sRele s2
    if s3.registered then zfsctl_snapshot_unmount_delay_impl s3 expire
    else s3

/-- The taskq worker running the oldest queued task for this entry: the
task leaves the queue and its callback `snapentry_expire` runs. -/
def fireStep (expire : Int) (busy : Bool) (s : SEntry) : SEntry :=
  match s.pending with
  | [] => s
  | _ :: rest => snapentry_expire expire busy { s with pending := rest }

/-- Scheduler operations: arm (`zfsctl_snapshot_unmount_delay_impl`), cancel
(`zfsctl_snapshot_unmount_cancel`), and a queued task firing. -/
inductive SOp where
  | arm (delay : Int)
  | cancel
  | fire (busy : Bool)
  deriving Repr, DecidableEq

/-- One scheduler step. -/
def sstep (expire : Int) (s : SEntry) (op : SOp) : SEntry :=
  match op with
  | .arm delay => zfsctl_snapshot_unmount_delay_impl s delay
  | .cancel => zfsctl_snapshot_unmount_cancel s
  | .fire busy => fireStep expire busy s

/-- Run a sequence of scheduler operations. -/
def srun (expire : Int) (s : SEntry) (ops : List SOp) : SEntry :=
  match ops with
  | [] => s
  | op :: t => srun expire (sstep expire s op) t

/-!
Interleaving model of N threads racing through `zfsctl_snapshot_mount` for
the same snapshot name before any entry exists.  Each thread performs two
atomic actions, exactly the two registry-visible actions of the C path:

1. the `zfsctl_snapshot_ismounted(full_name)` check (a read-locked
   `find_by_name`), after which the read lock is dropped — nothing prevents
   another thread from mounting in between;
2. the `call_usermodehelper(mount ...)` invocation.  The kernel serializes
   actual mounts: the first helper to run mounts the snapshot (exit status
   0) and the thread registers the entry under the write lock; a later
   helper finds the mountpoint busy and exits with `MOUNT_BUSY`, which the
   C code explicitly absorbs (`error = 0`, no registration).
-/

/-- Program counter of one thread in `zfsctl_snapshot_mount`. -/
inductive TPc where
  | ready
  | mounting
  | done (err : Nat)
  deriving Repr, DecidableEq

/-- Shared state of the mount race. -/
structure MountRace where
  threads : List TPc
  registered : Bool
  osMounted : Bool
  helperCalls : Nat
  helperMounts : Nat
  deriving Repr, DecidableEq

/-- Initial state: N threads about to run, name not registered, snapshot not
mounted. -/
def minit (n : Nat) : MountRace :=
  { threads := List.replicate n TPc.ready, registered := false,
    osMounted := false, helperCalls := 0, helperMounts := 0 }

/-- Scheduler picks thread `t`; it executes its next atomic action. -/
def mountStep (m : MountRace) (t : Nat) : MountRace :=
  match m.threads.get? t with
  | none => m
  | some .ready =>
      if m.registered then { m with threads := m.threads.set t (.done 0) }
      else { m with threads := m.threads.set t .mounting }
  | some .mounting =>
      if m.osMounted then
        { m with threads := m.threads.set t (.done 0),
                 helperCalls := m.helperCalls + 1 }
      else
        { m with threads := m.threads.set t (.done 0),
                 helperCalls := m.helperCalls + 1,
                 helperMounts := m.helperMounts + 1,
                 osMounted := true, registered := true }
  | some (.done _) => m

/-- Run a schedule (list of thread choices). -/
def mountRun (m : MountRace) (sched : List Nat) : MountRace :=
  match sched with
  | [] => m
  | t :: rest => mountRun (mountStep m t) rest

/-- A finished thread. -/
def isDone : TPc → Prop
  | .done _ => True
  | _ => False

instance (pc : TPc) : Decidable (isDone pc) := by
  cases pc <;> simp [isDone] <;> infer_instance

/-! ### Association-list lemmas for the heap -/

theorem hlookup_mem_keys {h : Heap} {i : EId} {e : EntryRec}
    (hl : hlookup h i = some e) : i ∈ h.map Prod.fst := by
  induction h with
  | nil => simp [hlookup] at hl
  | cons p t ih =>
      obtain ⟨j, e0⟩ := p
      by_cases hj : j = i
      · subst hj; simp
      · simp only [hlookup, if_neg hj] at hl
        simpa using Or.inr (ih hl)

theorem hlookup_eq_none {h : Heap} {i : EId}
    (hm : i ∉ h.map Prod.fst) : hlookup h i = none := by
  induction h with
  | nil => rfl
  | cons p t ih =>
      obtain ⟨j, e0⟩ := p
      simp only [List.map_cons, List.mem_cons] at hm
      push_neg at hm
      have hji : ¬(j = i) := fun hh => hm.1 hh.symm
      simp only [hlookup, if_neg hji]
      exact ih hm.2

theorem hlookup_hupdate_same {h : Heap} {i : EId} {e0 e : EntryRec}
    (hl : hlookup h i = some e0) : hlookup (hupdate h i e) i = some e := by
  induction h with
  | nil => simp [hlookup] at hl
  | cons p t ih =>
      obtain ⟨j, e1⟩ := p
      by_cases hj : j = i
      · simp [hupdate, hlookup, hj]
      · simp only [hlookup, if_neg hj] at hl
        simp only [hupdate, if_neg hj, hlookup]
        exact ih hl

theorem hlookup_hupdate_ne {h : Heap} {i j : EId} {e : EntryRec}
    (hij : j ≠ i) : hlookup (hupdate h i e) j = hlookup h j := by
  induction h with
  | nil => rfl
  | cons p t ih =>
      obtain ⟨k, e1⟩ := p
      by_cases hk : k = i
      · subst hk
        have hkj : ¬(k = j) := fun hh => hij hh.symm
        simp [hupdate, hlookup, hkj]
      · simp only [hupdate, if_neg hk, hlookup]
        by_cases hkj : k = j
        · simp [hkj]
        · rw [if_neg hkj, if_neg hkj]
          exact ih

theorem hupdate_keys (h : Heap) (i : EId) (e : EntryRec) :
    (hupdate h i e).map Prod.fst = h.map Prod.fst := by
  induction h with
  | nil => rfl
  | cons p t ih =>
      obtain ⟨k, e1⟩ := p
      by_cases hk : k = i
      · simp [hupdate, hk]
      · simp only [hupdate, if_neg hk, List.map_cons, ih]

theorem herase_keys (h : Heap) (i : EId) :
    (herase h i).map Prod.fst = (h.map Prod.fst).erase i := by
  induction h with
  | nil => rfl
  | cons p t ih =>
      obtain ⟨k, e1⟩ := p
      by_cases hk : k = i
      · subst hk
        simp [herase, List.erase_cons_head]
      · simp only [herase, if_neg hk, List.map_cons, ih]
        rw [List.erase_cons_tail]
        simp [hk]

theorem hlookup_herase_same {h : Heap} (hn : (h.map Prod.fst).Nodup)
    (i : EId) : hlookup (herase h i) i = none := by
  apply hlookup_eq_none
  rw [herase_keys]
  exact (hn.mem_erase_iff).mp.mt (by simp)

theorem hupdate_hupdate (h : Heap) (i : EId) (x y : EntryRec) :
    hupdate (hupdate h i x) i y = hupdate h i y := by
  induction h with
  | nil => rfl
  | cons p t ih =>
      obtain ⟨k, e1⟩ := p
      by_cases hk : k = i
      · simp [hupdate, hk]
      · simp [hupdate, hk, ih]

theorem hlookup_herase_ne {h : Heap} {i j : EId} (hij : j ≠ i) :
    hlookup (herase h i) j = hlookup h j := by
  induction h with
  | nil => rfl
  | cons p t ih =>
      obtain ⟨k, e1⟩ := p
      by_cases hk : k = i
      · subst hk
        have hkj : ¬(k = j) := fun hh => hij hh.symm
        simp [herase, hlookup, hkj]
      · simp only [herase, if_neg hk, hlookup]
        by_cases hkj : k = j
        · simp [hkj]
        · rw [if_neg hkj, if_neg hkj]
          exact ih

/-! ### Lemmas about `avl_find` on the modelled trees -/

theorem findIdIn_some {h : Heap} {ids : List EId} {n : String} {i : EId}
    (hf : findIdIn h ids n = some i) :
    i ∈ ids ∧ ∃ e, hlookup h i = some e ∧ e.se_name = n := by
  induction ids with
  | nil => simp [findIdIn] at hf
  | cons j t ih =>
      cases hl : hlookup h j with
      | none =>
          simp only [findIdIn, hl] at hf
          rcases ih hf with ⟨hm, he⟩
          exact ⟨List.mem_cons_of_mem _ hm, he⟩
      | some e =>
          simp only [findIdIn, hl] at hf
          by_cases hn : e.se_name = n
          · rw [if_pos hn] at hf
            cases hf
            exact ⟨List.mem_cons_self _ _, e, hl, hn⟩
          · rw [if_neg hn] at hf
            rcases ih hf with ⟨hm, he⟩
            exact ⟨List.mem_cons_of_mem _ hm, he⟩

theorem findIdIn_eq_none {h : Heap} {ids : List EId} {n : String}
    (hn : ∀ i ∈ ids, ∀ e, hlookup h i = some e → e.se_name ≠ n) :
    findIdIn h ids n = none := by
  induction ids with
  | nil => rfl
  | cons j t ih =>
      cases hl : hlookup h j with
      | none =>
          simp only [findIdIn, hl]
          exact ih fun i hi e he => hn i (List.mem_cons_of_mem _ hi) e he
      | some e =>
          simp only [findIdIn, hl]
          rw [if_neg (hn j (List.mem_cons_self _ _) e hl)]
          exact ih fun i hi e' he => hn i (List.mem_cons_of_mem _ hi) e' he

theorem findIdIn_of_mem {h : Heap} {ids : List EId} {n : String} {i : EId}
    {e : EntryRec} (hm : i ∈ ids) (hl : hlookup h i = some e)
    (hname : e.se_name = n) : findIdIn h ids n ≠ none := by
  intro hnone
  induction ids with
  | nil => simp at hm
  | cons j t ih =>
      rcases List.mem_cons.mp hm with hji | hmt
      · subst hji
        simp only [findIdIn, hl, if_pos hname] at hnone
        exact Option.noConfusion hnone
      · apply ih hmt
        cases hl2 : hlookup h j with
        | none => simpa only [findIdIn, hl2] using hnone
        | some e2 =>
            simp only [findIdIn, hl2] at hnone
            by_cases hn2 : e2.se_name = n
            · rw [if_pos hn2] at hnone; exact Option.noConfusion hnone
            · rw [if_neg hn2] at hnone; exact hnone

theorem findIdObjIn_some {h : Heap} {ids : List EId} {spa objsetid : Nat}
    {i : EId} (hf : findIdObjIn h ids spa objsetid = some i) :
    i ∈ ids ∧ ∃ e, hlookup h i = some e ∧ e.se_spa = spa ∧
      e.se_objsetid = objsetid := by
  induction ids with
  | nil => simp [findIdObjIn] at hf
  | cons j t ih =>
      cases hl : hlookup h j with
      | none =>
          simp only [findIdObjIn, hl] at hf
          rcases ih hf with ⟨hm, he⟩
          exact ⟨List.mem_cons_of_mem _ hm, he⟩
      | some e =>
          simp only [findIdObjIn, hl] at hf
          by_cases hn : e.se_spa = spa ∧ e.se_objsetid = objsetid
          · rw [if_pos hn] at hf
            cases hf
            exact ⟨List.mem_cons_self _ _, e, hl, hn.1, hn.2⟩
          · rw [if_neg hn] at hf
            rcases ih hf with ⟨hm, he⟩
            exact ⟨List.mem_cons_of_mem _ hm, he⟩

theorem findIdObjIn_of_mem {h : Heap} {ids : List EId} {spa objsetid : Nat}
    {i : EId} {e : EntryRec} (hm : i ∈ ids) (hl : hlookup h i = some e)
    (hspa : e.se_spa = spa) (hobj : e.se_objsetid = objsetid) :
    findIdObjIn h ids spa objsetid ≠ none := by
  intro hnone
  induction ids with
  | nil => simp at hm
  | cons j t ih =>
      rcases List.mem_cons.mp hm with hji | hmt
      · subst hji
        simp only [findIdObjIn, hl, if_pos (And.intro hspa hobj)] at hnone
        exact Option.noConfusion hnone
      · apply ih hmt
        cases hl2 : hlookup h j with
        | none => simpa only [findIdObjIn, hl2] using hnone
        | some e2 =>
            simp only [findIdObjIn, hl2] at hnone
            by_cases hn2 : e2.se_spa = spa ∧ e2.se_objsetid = objsetid
            · rw [if_pos hn2] at hnone; exact Option.noConfusion hnone
            · rw [if_neg hn2] at hnone; exact hnone

/-! ### The registry invariant -/

/-- The data invariant of the dual-index registry: the heap keys are
unique, the two trees link exactly the same set of allocated entries, no
key (name or `(spa, objsetid)`) is duplicated, the allocator counter is
fresh, and `se_refcount` accounts for the registry's reference plus the
ghost count of outside holders. -/
structure RInv (st : RState) : Prop where
  heapNodup : (st.heap.map Prod.fst).Nodup
  nameNodup : st.byName.Nodup
  objNodup : st.byObjsetid.Nodup
  both : ∀ i, i ∈ st.byName ↔ i ∈ st.byObjsetid
  inHeap : ∀ i ∈ st.byName, ∃ e, hlookup st.heap i = some e
  fresh : ∀ i e, hlookup st.heap i = some e → i < st.nextId
  account : ∀ i e, hlookup st.heap i = some e →
    e.se_refcount = e.holders + (if i ∈ st.byName then 1 else 0)
  uniqName : ∀ i ∈ st.byName, ∀ j ∈ st.byName, ∀ ei ej,
    hlookup st.heap i = some ei → hlookup st.heap j = some ej →
    ei.se_name = ej.se_name → i = j
  uniqObj : ∀ i ∈ st.byName, ∀ j ∈ st.byName, ∀ ei ej,
    hlookup st.heap i = some ei → hlookup st.heap j = some ej →
    ei.se_spa = ej.se_spa → ei.se_objsetid = ej.se_objsetid → i = j

theorem rinv_init : RInv rinit := by
  constructor <;> simp [rinit, hlookup]

theorem mem_keys_hlookup {h : Heap} {i : EId} (hm : i ∈ h.map Prod.fst) :
    ∃ e, hlookup h i = some e := by
  induction h with
  | nil => simp at hm
  | cons p t ih =>
      obtain ⟨j, e0⟩ := p
      by_cases hj : j = i
      · exact ⟨e0, by simp [hlookup, hj]⟩
      · simp only [List.map_cons, List.mem_cons] at hm
        rcases hm with hm | hm
        · exact absurd hm.symm hj
        · simpa [hlookup, hj] using ih hm

/-- `zfsctl_snapshot_hold` on an allocated entry, explicitly. -/
theorem hold_eq {st : RState} {i : EId} {e : EntryRec} (b : Bool)
    (hl : hlookup st.heap i = some e) :
    zfsctl_snapshot_hold st i b =
      { st with heap := hupdate st.heap i { e with se_refcount := e.se_refcount + 1, holders := if b then e.holders + 1 else e.holders } } := by
  simp [zfsctl_snapshot_hold, hl]

/-- `zfsctl_snapshot_rele` when other references remain, explicitly. -/
theorem rele_eq_live {st : RState} {i : EId} {e : EntryRec} (b : Bool)
    (hl : hlookup st.heap i = some e) (hrc : e.se_refcount - 1 ≠ 0) :
    zfsctl_snapshot_rele st i b =
      { st with heap := hupdate st.heap i { e with se_refcount := e.se_refcount - 1, holders := if b then e.holders - 1 else e.holders } } := by
  simp [zfsctl_snapshot_rele, hl, hrc]

/-- `zfsctl_snapshot_rele` dropping the last reference frees the entry. -/
theorem rele_eq_free {st : RState} {i : EId} {e : EntryRec} (b : Bool)
    (hl : hlookup st.heap i = some e) (hrc : e.se_refcount - 1 = 0) :
    zfsctl_snapshot_rele st i b = { st with heap := herase st.heap i } := by
  simp [zfsctl_snapshot_rele, hl, hrc]

theorem rinv_mount {st : RState} (inv : RInv st) (name path : String)
    (spa objsetid : Nat) : RInv (rstep st (.mount name path spa objsetid)) := by
  by_cases hg : mountOk st name spa objsetid
  case neg => simpa [rstep, hg] using inv
  have hfree : hlookup st.heap st.nextId = none := by
    cases hl : hlookup st.heap st.nextId with
    | none => rfl
    | some e => exact absurd (inv.fresh _ _ hl) (lt_irrefl _)
  have hstep : rstep st (.mount name path spa objsetid) =
      { heap := (st.nextId, { se_name := name, se_path := path, se_spa := spa, se_objsetid := objsetid, se_refcount := 1, holders := 0 }) :: st.heap,
        byName := st.nextId :: st.byName,
        byObjsetid := st.nextId :: st.byObjsetid,
        nextId := st.nextId + 1 } := by
    simp [rstep, hg, zfsctl_snapshot_add, zfsctl_snapshot_hold, hlookup, hupdate]
  rw [hstep]
  have hkey : st.nextId ∉ st.heap.map Prod.fst := by
    intro hm
    rcases mem_keys_hlookup hm with ⟨e, hl⟩
    rw [hl] at hfree
    exact Option.noConfusion hfree
  have hnotName : st.nextId ∉ st.byName := by
    intro hm
    rcases inv.inHeap _ hm with ⟨e, hl⟩
    rw [hl] at hfree
    exact Option.noConfusion hfree
  have hnotObj : st.nextId ∉ st.byObjsetid := by
    intro hm
    rcases inv.inHeap _ ((inv.both _).mpr hm) with ⟨e, hl⟩
    rw [hl] at hfree
    exact Option.noConfusion hfree
  have hlook : ∀ j, j ≠ st.nextId → ∀ e : EntryRec,
      (hlookup ((st.nextId, e) :: st.heap) j = hlookup st.heap j) := by
    intro j hj e
    have hne : ¬(st.nextId = j) := fun hh => hj hh.symm
    simp [hlookup, hne]
  refine ⟨?_, ?_, ?_, ?_, ?_, ?_, ?_, ?_, ?_⟩
  · rw [List.map_cons]
    exact List.nodup_cons.mpr ⟨hkey, inv.heapNodup⟩
  · exact List.Nodup.cons hnotName inv.nameNodup
  · exact List.Nodup.cons hnotObj inv.objNodup
  · intro i; simp [inv.both i]
  · intro i hi
    rcases List.mem_cons.mp hi with hi | hi
    · subst hi
      exact ⟨{ se_name := name, se_path := path, se_spa := spa, se_objsetid := objsetid, se_refcount := 1, holders := 0 }, by simp [hlookup]⟩
    · rcases inv.inHeap _ hi with ⟨e, hl⟩
      have hji : i ≠ st.nextId := fun hh => hnotName (hh ▸ hi)
      exact ⟨e, by rw [hlook i hji]; exact hl⟩
  · intro i e hl
    by_cases hj : i = st.nextId
    · subst hj; exact Nat.lt_succ_self _
    · rw [hlook i hj] at hl
      exact Nat.lt_succ_of_lt (inv.fresh _ _ hl)
  · intro i e hl
    by_cases hj : i = st.nextId
    · subst hj
      simp only [hlookup, if_pos rfl] at hl
      cases hl
      simp
    · rw [hlook i hj] at hl
      have hacc := inv.account _ _ hl
      simpa [List.mem_cons, hj] using hacc
  · intro i hi j hj ei ej hli hlj hnm
    rcases List.mem_cons.mp hi with hi | hi <;>
      rcases List.mem_cons.mp hj with hj | hj
    · rw [hi, hj]
    · subst hi
      simp only [hlookup, if_pos rfl] at hli
      cases hli
      have hjne : j ≠ st.nextId := fun hh => hnotName (hh ▸ hj)
      rw [hlook j hjne] at hlj
      exact absurd (findIdIn_of_mem hj hlj (by simpa using hnm.symm)) (by simpa [findIdByName] using hg.1)
    · subst hj
      simp only [hlookup, if_pos rfl] at hlj
      cases hlj
      have hine : i ≠ st.nextId := fun hh => hnotName (hh ▸ hi)
      rw [hlook i hine] at hli
      exact absurd (findIdIn_of_mem hi hli (by simpa using hnm)) (by simpa [findIdByName] using hg.1)
    · have hine : i ≠ st.nextId := fun hh => hnotName (hh ▸ hi)
      have hjne : j ≠ st.nextId := fun hh => hnotName (hh ▸ hj)
      rw [hlook i hine] at hli
      rw [hlook j hjne] at hlj
      exact inv.uniqName i hi j hj ei ej hli hlj hnm
  · intro i hi j hj ei ej hli hlj hsp hob
    rcases List.mem_cons.mp hi with hi | hi <;>
      rcases List.mem_cons.mp hj with hj | hj
    · rw [hi, hj]
    · subst hi
      simp only [hlookup, if_pos rfl] at hli
      cases hli
      have hjne : j ≠ st.nextId := fun hh => hnotName (hh ▸ hj)
      rw [hlook j hjne] at hlj
      exact absurd (findIdObjIn_of_mem ((inv.both _).mp hj) hlj (by simpa using hsp.symm) (by simpa using hob.symm)) (by simpa [findIdByObjsetid] using hg.2)
    · subst hj
      simp only [hlookup, if_pos rfl] at hlj
      cases hlj
      have hine : i ≠ st.nextId := fun hh => hnotName (hh ▸ hi)
      rw [hlook i hine] at hli
      exact absurd (findIdObjIn_of_mem ((inv.both _).mp hi) hli (by simpa using hsp) (by simpa using hob)) (by simpa [findIdByObjsetid] using hg.2)
    · have hine : i ≠ st.nextId := fun hh => hnotName (hh ▸ hi)
      have hjne : j ≠ st.nextId := fun hh => hnotName (hh ▸ hj)
      rw [hlook i hine] at hli
      rw [hlook j hjne] at hlj
      exact inv.uniqObj i hi j hj ei ej hli hlj hsp hob

/-- Key-field–preserving heap transformations transfer the two uniqueness
properties. -/
theorem uniq_transfer {st : RState} (inv : RInv st) (h2 : Heap)
    (ids : List EId) (hsub : ∀ j, j ∈ ids → j ∈ st.byName)
    (hs : ∀ j ∈ ids, ∀ ej, hlookup h2 j = some ej →
      ∃ ej0, hlookup st.heap j = some ej0 ∧ ej.se_name = ej0.se_name ∧
        ej.se_spa = ej0.se_spa ∧ ej.se_objsetid = ej0.se_objsetid) :
    (∀ i ∈ ids, ∀ j ∈ ids, ∀ ei ej, hlookup h2 i = some ei →
      hlookup h2 j = some ej → ei.se_name = ej.se_name → i = j) ∧
    (∀ i ∈ ids, ∀ j ∈ ids, ∀ ei ej, hlookup h2 i = some ei →
      hlookup h2 j = some ej → ei.se_spa = ej.se_spa →
      ei.se_objsetid = ej.se_objsetid → i = j) := by
  constructor
  · intro i hi j hj ei ej hli hlj hnm
    rcases hs i hi ei hli with ⟨ei0, hli0, hn, _, _⟩
    rcases hs j hj ej hlj with ⟨ej0, hlj0, hn2, _, _⟩
    exact inv.uniqName i (hsub i hi) j (hsub j hj) ei0 ej0 hli0 hlj0
      (hn ▸ hn2 ▸ hnm)
  · intro i hi j hj ei ej hli hlj hsp hob
    rcases hs i hi ei hli with ⟨ei0, hli0, _, hp, ho⟩
    rcases hs j hj ej hlj with ⟨ej0, hlj0, _, hp2, ho2⟩
    exact inv.uniqObj i (hsub i hi) j (hsub j hj) ei0 ej0 hli0 hlj0
      (hp ▸ hp2 ▸ hsp) (ho ▸ ho2 ▸ hob)

/-- A `find_by_*` hold on a registered entry preserves the invariant. -/
theorem rinv_hold_registered {st : RState} (inv : RInv st) {i : EId}
    (hi : i ∈ st.byName) : RInv (zfsctl_snapshot_hold st i true) := by
  rcases inv.inHeap _ hi with ⟨e, hl⟩
  rw [hold_eq true hl]
  have hlook : ∀ j (ej : EntryRec),
      hlookup (hupdate st.heap i { e with se_refcount := e.se_refcount + 1, holders := e.holders + 1 }) j = some ej →
      (j = i ∧ ej = { e with se_refcount := e.se_refcount + 1, holders := e.holders + 1 }) ∨ (j ≠ i ∧ hlookup st.heap j = some ej) := by
    intro j ej hlj
    by_cases hj : j = i
    · subst hj
      rw [hlookup_hupdate_same hl] at hlj
      cases hlj
      exact Or.inl ⟨rfl, rfl⟩
    · rw [hlookup_hupdate_ne hj] at hlj
      exact Or.inr ⟨hj, hlj⟩
  have htrans := uniq_transfer inv
    (hupdate st.heap i { e with se_refcount := e.se_refcount + 1, holders := e.holders + 1 })
    st.byName (fun j hj => hj)
    (by
      intro j hj ej hlj
      rcases hlook j ej hlj with ⟨hj, he⟩ | ⟨hj, he⟩
      · subst hj; cases he; exact ⟨e, hl, rfl, rfl, rfl⟩
      · exact ⟨ej, he, rfl, rfl, rfl⟩)
  refine ⟨?_, inv.nameNodup, inv.objNodup, inv.both, ?_, ?_, ?_, htrans.1, htrans.2⟩
  · rw [hupdate_keys]; exact inv.heapNodup
  · intro j hj
    by_cases hji : j = i
    · subst hji
      exact ⟨_, hlookup_hupdate_same hl⟩
    · rcases inv.inHeap _ hj with ⟨ej, hlj⟩
      exact ⟨ej, by rw [hlookup_hupdate_ne hji]; exact hlj⟩
  · intro j ej hlj
    rcases hlook j ej hlj with ⟨hj, _⟩ | ⟨_, he⟩
    · subst hj; exact inv.fresh _ _ hl
    · exact inv.fresh _ _ he
  · intro j ej hlj
    rcases hlook j ej hlj with ⟨hj, he⟩ | ⟨hj, he⟩
    · subst hj
      cases he
      have := inv.account _ _ hl
      simp only [if_pos hi] at this ⊢
      omega
    · exact inv.account _ _ he

/-- `find` preserves the invariant. -/
theorem rinv_find {st : RState} (inv : RInv st) (n : String) :
    RInv (rstep st (.find n)) := by
  simp only [rstep, zfsctl_snapshot_find_by_name]
  cases hf : findIdByName st n with
  | none => exact inv
  | some i => exact rinv_hold_registered inv (findIdIn_some hf).1

/-- `findObj` preserves the invariant. -/
theorem rinv_findObj {st : RState} (inv : RInv st) (spa objsetid : Nat) :
    RInv (rstep st (.findObj spa objsetid)) := by
  simp only [rstep, zfsctl_snapshot_find_by_objsetid]
  cases hf : findIdByObjsetid st spa objsetid with
  | none => exact inv
  | some i => exact rinv_hold_registered inv ((inv.both _).mpr (findIdObjIn_some hf).1)

theorem herase_hupdate (h : Heap) (i : EId) (x : EntryRec) :
    herase (hupdate h i x) i = herase h i := by
  induction h with
  | nil => rfl
  | cons p t ih =>
      obtain ⟨k, e1⟩ := p
      by_cases hk : k = i
      · simp [hupdate, herase, hk]
      · simp [hupdate, herase, hk, ih]

/-- Any state whose trees are the old trees with `i` unlinked, and whose heap
agrees with the old heap away from `i` while `i` (if still allocated) is no
longer charged with the registry reference, satisfies the invariant. -/
theorem rinv_after_remove {st : RState} (inv : RInv st) (i : EId) (h2 : Heap)
    (hnod : (h2.map Prod.fst).Nodup)
    (hne : ∀ j, j ≠ i → hlookup h2 j = hlookup st.heap j)
    (hself : ∀ e2, hlookup h2 i = some e2 →
      i < st.nextId ∧ e2.se_refcount = e2.holders) :
    RInv { heap := h2, byName := st.byName.erase i,
           byObjsetid := st.byObjsetid.erase i, nextId := st.nextId } := by
  have hmemN : ∀ j, j ∈ st.byName.erase i ↔ j ≠ i ∧ j ∈ st.byName :=
    fun j => inv.nameNodup.mem_erase_iff
  have hmemO : ∀ j, j ∈ st.byObjsetid.erase i ↔ j ≠ i ∧ j ∈ st.byObjsetid :=
    fun j => inv.objNodup.mem_erase_iff
  have htrans := uniq_transfer inv h2 (st.byName.erase i)
    (fun j hj => ((hmemN j).mp hj).2)
    (by
      intro j hj ej hlj
      rw [hne j ((hmemN j).mp hj).1] at hlj
      exact ⟨ej, hlj, rfl, rfl, rfl⟩)
  refine ⟨hnod, inv.nameNodup.erase i, inv.objNodup.erase i, ?_, ?_, ?_, ?_, htrans.1, htrans.2⟩
  · intro j
    rw [hmemN j, hmemO j, inv.both j]
  · intro j hj
    rcases (hmemN j).mp hj with ⟨hji, hjm⟩
    rcases inv.inHeap _ hjm with ⟨ej, hlj⟩
    exact ⟨ej, by rw [hne j hji]; exact hlj⟩
  · intro j ej hlj
    by_cases hji : j = i
    · subst hji; exact (hself _ hlj).1
    · rw [hne j hji] at hlj
      exact inv.fresh _ _ hlj
  · intro j ej hlj
    by_cases hji : j = i
    · have hni : j ∉ st.byName.erase i := by
        rw [hmemN j]; intro hc; exact hc.1 hji
      rw [if_neg hni]
      rw [hji] at hlj
      simpa using (hself _ hlj).2
    · rw [hne j hji] at hlj
      have := inv.account _ _ hlj
      have hiff : j ∈ st.byName.erase i ↔ j ∈ st.byName := by
        rw [hmemN j]; exact and_iff_right hji
      rw [if_congr hiff rfl rfl]
      exact this

/-- `destroy` preserves the invariant. -/
theorem rinv_destroy {st : RState} (inv : RInv st) (spa objsetid : Nat) :
    RInv (rstep st (.destroy spa objsetid)) := by
  cases hf : findIdByObjsetid st spa objsetid with
  | none => simpa [rstep, hf] using inv
  | some i =>
      obtain ⟨hio, e, hl, _, _⟩ := findIdObjIn_some hf
      have hin : i ∈ st.byName := (inv.both i).mpr hio
      have hacc := inv.account i e hl
      rw [if_pos hin] at hacc
      simp only [rstep, hf]
      rw [hold_eq true hl]
      simp only [zfsctl_snapshot_remove]
      have hl1 : hlookup (hupdate st.heap i { e with se_refcount := e.se_refcount + 1, holders := e.holders + 1 }) i = some { e with se_refcount := e.se_refcount + 1, holders := e.holders + 1 } :=
        hlookup_hupdate_same hl
      rw [rele_eq_live false hl1 (by simp; omega)]
      simp only [hupdate_hupdate]
      have hl2 : hlookup (hupdate st.heap i { e with se_refcount := e.se_refcount + 1 - 1, holders := e.holders + 1 }) i = some { e with se_refcount := e.se_refcount + 1 - 1, holders := e.holders + 1 } :=
        hlookup_hupdate_same hl
      by_cases hh : e.holders = 0
      · rw [rele_eq_free true hl2 (by simp; omega)]
        simp only [herase_hupdate]
        exact rinv_after_remove inv i (herase st.heap i)
          (by rw [herase_keys]; exact inv.heapNodup.erase i)
          (fun j hj => hlookup_herase_ne hj)
          (by
            intro e2 hl3
            rw [hlookup_herase_same inv.heapNodup] at hl3
            exact Option.noConfusion hl3)
      · rw [rele_eq_live true hl2 (by simp; omega)]
        simp only [hupdate_hupdate]
        exact rinv_after_remove inv i _
          (by rw [hupdate_keys]; exact inv.heapNodup)
          (fun j hj => hlookup_hupdate_ne hj)
          (by
            intro e2 hl3
            rw [hlookup_hupdate_same hl] at hl3
            cases hl3
            exact ⟨inv.fresh _ _ hl, by simp; omega⟩)

/-- `drop` preserves the invariant. -/
theorem rinv_drop {st : RState} (inv : RInv st) (i : EId) :
    RInv (rstep st (.drop i)) := by
  by_cases hg : dropOk st i
  case neg => simpa [rstep, hg] using inv
  obtain ⟨e, hl, hh⟩ := hg
  have hstep : rstep st (.drop i) = zfsctl_snapshot_rele st i true := by
    simp only [rstep]
    rw [if_pos ⟨e, hl, hh⟩]
  rw [hstep]
  have hacc := inv.account i e hl
  by_cases hdead : e.se_refcount - 1 = 0
  · -- the last reference: the entry cannot be registered, and it is freed
    have hnotName : i ∉ st.byName := by
      intro hmem
      rw [if_pos hmem] at hacc
      omega
    rw [rele_eq_free true hl hdead]
    have htrans := uniq_transfer inv (herase st.heap i) st.byName
      (fun j hj => hj)
      (by
        intro j hj ej hlj
        have hji : j ≠ i := fun hc => hnotName (hc ▸ hj)
        rw [hlookup_herase_ne hji] at hlj
        exact ⟨ej, hlj, rfl, rfl, rfl⟩)
    refine ⟨?_, inv.nameNodup, inv.objNodup, inv.both, ?_, ?_, ?_, htrans.1, htrans.2⟩
    · rw [herase_keys]; exact inv.heapNodup.erase i
    · intro j hj
      have hji : j ≠ i := fun hc => hnotName (hc ▸ hj)
      rcases inv.inHeap _ hj with ⟨ej, hlj⟩
      exact ⟨ej, by rw [hlookup_herase_ne hji]; exact hlj⟩
    · intro j ej hlj
      by_cases hji : j = i
      · subst hji
        rw [hlookup_herase_same inv.heapNodup] at hlj
        exact Option.noConfusion hlj
      · rw [hlookup_herase_ne hji] at hlj
        exact inv.fresh _ _ hlj
    · intro j ej hlj
      by_cases hji : j = i
      · subst hji
        rw [hlookup_herase_same inv.heapNodup] at hlj
        exact Option.noConfusion hlj
      · rw [hlookup_herase_ne hji] at hlj
        exact inv.account _ _ hlj
  · rw [rele_eq_live true hl hdead]
    have htrans := uniq_transfer inv
      (hupdate st.heap i { e with se_refcount := e.se_refcount - 1, holders := e.holders - 1 })
      st.byName (fun j hj => hj)
      (by
        intro j hj ej hlj
        by_cases hji : j = i
        · rw [hji] at hlj
          rw [hlookup_hupdate_same hl] at hlj
          cases hlj
          rw [hji]
          exact ⟨e, hl, rfl, rfl, rfl⟩
        · rw [hlookup_hupdate_ne hji] at hlj
          exact ⟨ej, hlj, rfl, rfl, rfl⟩)
    refine ⟨?_, inv.nameNodup, inv.objNodup, inv.both, ?_, ?_, ?_, htrans.1, htrans.2⟩
    · rw [hupdate_keys]; exact inv.heapNodup
    · intro j hj
      by_cases hji : j = i
      · subst hji
        exact ⟨_, hlookup_hupdate_same hl⟩
      · rcases inv.inHeap _ hj with ⟨ej, hlj⟩
        exact ⟨ej, by rw [hlookup_hupdate_ne hji]; exact hlj⟩
    · intro j ej hlj
      by_cases hji : j = i
      · subst hji
        rw [hlookup_hupdate_same hl] at hlj
        cases hlj
        exact inv.fresh _ _ hl
      · rw [hlookup_hupdate_ne hji] at hlj
        exact inv.fresh _ _ hlj
    · intro j ej hlj
      by_cases hji : j = i
      · subst hji
        rw [hlookup_hupdate_same hl] at hlj
        cases hlj
        by_cases hmem : j ∈ st.byName
        · rw [if_pos hmem] at hacc ⊢
          simp
          omega
        · rw [if_neg hmem] at hacc ⊢
          simp
          omega
      · rw [hlookup_hupdate_ne hji] at hlj
        exact inv.account _ _ hlj

/-- Full characterization of a successful `zfsctl_snapshot_rename`: the
entry keeps its identity and reference count, only `se_name` changes, and it
is unlinked and relinked in both trees. -/
theorem rename_eq {st : RState} {a : String} (b : String) {i : EId}
    {e : EntryRec} (hf : findIdByName st a = some i)
    (hl : hlookup st.heap i = some e) (hrc : e.se_refcount ≠ 0) :
    zfsctl_snapshot_rename st a b =
      (0, { heap := hupdate st.heap i { e with se_name := b },
            byName := i :: st.byName.erase i,
            byObjsetid := i :: st.byObjsetid.erase i,
            nextId := st.nextId }) := by
  simp only [zfsctl_snapshot_rename, hf]
  rw [hold_eq true hl]
  simp only [zfsctl_snapshot_remove]
  rw [rele_eq_live false (hlookup_hupdate_same hl) (by simpa using hrc)]
  simp only [hupdate_hupdate]
  rw [hlookup_hupdate_same hl]
  simp only [hupdate_hupdate, zfsctl_snapshot_add]
  rw [hold_eq false (hlookup_hupdate_same hl)]
  simp only [hupdate_hupdate]
  rw [rele_eq_live true (hlookup_hupdate_same hl) (by simpa using hrc)]
  simp only [hupdate_hupdate]
  simp [Nat.add_sub_cancel]

/-- `rename` preserves the invariant. -/
theorem rinv_rename {st : RState} (inv : RInv st) (a b : String) :
    RInv (rstep st (.rename a b)) := by
  by_cases hg : renameOk st a b
  case neg => simpa [rstep, hg] using inv
  cases hf : findIdByName st a with
  | none => simpa [rstep, hg, zfsctl_snapshot_rename, hf] using inv
  | some i =>
      obtain ⟨hin, e, hl, hname⟩ := findIdIn_some hf
      have hacc := inv.account i e hl
      rw [if_pos hin] at hacc
      have hstep : rstep st (.rename a b) = (zfsctl_snapshot_rename st a b).2 := by
        simp [rstep, hg]
      rw [hstep, rename_eq b hf hl (by omega)]
      have hmemN : ∀ j, j ∈ st.byName.erase i ↔ j ≠ i ∧ j ∈ st.byName :=
        fun j => inv.nameNodup.mem_erase_iff
      have hmemO : ∀ j, j ∈ st.byObjsetid.erase i ↔ j ≠ i ∧ j ∈ st.byObjsetid :=
        fun j => inv.objNodup.mem_erase_iff
      have hiNotErase : i ∉ st.byName.erase i := by
        rw [hmemN i]; intro hc; exact hc.1 rfl
      have hiNotEraseO : i ∉ st.byObjsetid.erase i := by
        rw [hmemO i]; intro hc; exact hc.1 rfl
      have hsub : ∀ j, j ∈ i :: st.byName.erase i → j ∈ st.byName := by
        intro j hj
        rcases List.mem_cons.mp hj with hj | hj
        · exact hj ▸ hin
        · exact ((hmemN j).mp hj).2
      have hkey : ∀ j ∈ (i :: st.byName.erase i), ∀ ej,
          hlookup (hupdate st.heap i { e with se_name := b }) j = some ej →
          ∃ ej0, hlookup st.heap j = some ej0 ∧ ej.se_spa = ej0.se_spa ∧
            ej.se_objsetid = ej0.se_objsetid ∧
            (j ≠ i → ej.se_name = ej0.se_name) := by
        intro j hj ej hlj
        by_cases hji : j = i
        · rw [hji, hlookup_hupdate_same hl] at hlj
          cases hlj
          exact ⟨e, hji ▸ hl, rfl, rfl, fun hc => absurd hji hc⟩
        · rw [hlookup_hupdate_ne hji] at hlj
          exact ⟨ej, hlj, rfl, rfl, fun _ => rfl⟩
      refine ⟨?_, ?_, ?_, ?_, ?_, ?_, ?_, ?_, ?_⟩
      · rw [hupdate_keys]; exact inv.heapNodup
      · exact List.Nodup.cons hiNotErase (inv.nameNodup.erase i)
      · exact List.Nodup.cons hiNotEraseO (inv.objNodup.erase i)
      · intro j
        simp only [List.mem_cons]
        rw [hmemN j, hmemO j, inv.both j]
      · intro j hj
        by_cases hji : j = i
        · exact ⟨_, by rw [hji]; exact hlookup_hupdate_same hl⟩
        · rcases inv.inHeap _ (hsub j hj) with ⟨ej, hlj⟩
          exact ⟨ej, by rw [hlookup_hupdate_ne hji]; exact hlj⟩
      · intro j ej hlj
        by_cases hji : j = i
        · subst hji
          rw [hlookup_hupdate_same hl] at hlj
          cases hlj
          exact inv.fresh _ _ hl
        · rw [hlookup_hupdate_ne hji] at hlj
          exact inv.fresh _ _ hlj
      · intro j ej hlj
        by_cases hji : j = i
        · rw [hji, hlookup_hupdate_same hl] at hlj
          cases hlj
          have hjmem : j ∈ i :: st.byName.erase i := by
            rw [hji]; exact List.mem_cons_self _ _
          rw [if_pos hjmem]
          simpa using hacc
        · rw [hlookup_hupdate_ne hji] at hlj
          have := inv.account _ _ hlj
          have hiff : j ∈ i :: st.byName.erase i ↔ j ∈ st.byName := by
            simp only [List.mem_cons]
            rw [hmemN j]
            simp [hji]
          rw [if_congr hiff rfl rfl]
          exact this
      · intro j hj k hk ej ek hlj hlk hnm
        by_cases hji : j = i <;> by_cases hki : k = i
        · rw [hji, hki]
        · rw [hji, hlookup_hupdate_same hl] at hlj
          cases hlj
          rw [hlookup_hupdate_ne hki] at hlk
          have hkb : ek.se_name = b := by simpa using hnm.symm
          have hka : ek.se_name ≠ a := by
            intro hka
            exact hki (inv.uniqName k (hsub k hk) i hin ek e hlk hl
              (hka.trans hname.symm))
          exact absurd hkb (hg k (hsub k hk) ek hlk hka)
        · rw [hki, hlookup_hupdate_same hl] at hlk
          cases hlk
          rw [hlookup_hupdate_ne hji] at hlj
          have hjb : ej.se_name = b := by simpa using hnm
          have hja : ej.se_name ≠ a := by
            intro hja
            exact hji (inv.uniqName j (hsub j hj) i hin ej e hlj hl
              (hja.trans hname.symm))
          exact absurd hjb (hg j (hsub j hj) ej hlj hja)
        · rw [hlookup_hupdate_ne hji] at hlj
          rw [hlookup_hupdate_ne hki] at hlk
          exact inv.uniqName j (hsub j hj) k (hsub k hk) ej ek hlj hlk hnm
      · intro j hj k hk ej ek hlj hlk hsp hob
        rcases hkey j hj ej hlj with ⟨ej0, hlj0, hps, hpo, _⟩
        rcases hkey k hk ek hlk with ⟨ek0, hlk0, hqs, hqo, _⟩
        exact inv.uniqObj j (hsub j hj) k (hsub k hk) ej0 ek0 hlj0 hlk0
          (hps ▸ hqs ▸ hsp) (hpo ▸ hqo ▸ hob)

/-- Every registry operation preserves the invariant. -/
theorem rinv_rstep {st : RState} (inv : RInv st) (op : ROp) :
    RInv (rstep st op) := by
  cases op with
  | mount name path spa objsetid => exact rinv_mount inv name path spa objsetid
  | destroy spa objsetid => exact rinv_destroy inv spa objsetid
  | find name => exact rinv_find inv name
  | findObj spa objsetid => exact rinv_findObj inv spa objsetid
  | drop i => exact rinv_drop inv i
  | rename a b => exact rinv_rename inv a b

/-- The invariant holds in every reachable registry state. -/
theorem rinv_rrun {st : RState} (inv : RInv st) (ops : List ROp) :
    RInv (rrun st ops) := by
  induction ops generalizing st with
  | nil => exact inv
  | cons op t ih => exact ih (rinv_rstep inv op)

theorem hupdate_self {h : Heap} {i : EId} {e : EntryRec}
    (hl : hlookup h i = some e) : hupdate h i e = h := by
  induction h with
  | nil => rfl
  | cons p t ih =>
      obtain ⟨k, e1⟩ := p
      by_cases hk : k = i
      · subst hk
        simp only [hlookup, if_pos rfl] at hl
        cases hl
        simp [hupdate]
      · simp only [hlookup, if_neg hk] at hl
        simp [hupdate, hk, ih hl]

/-- Taking and then dropping a reference on a live entry restores the
state exactly (`zfsctl_snapshot_hold` followed by `zfsctl_snapshot_rele`). -/
theorem rele_hold_cancel {st : RState} {i : EId} {e : EntryRec} (b : Bool)
    (hl : hlookup st.heap i = some e) (hrc : e.se_refcount ≠ 0) :
    zfsctl_snapshot_rele (zfsctl_snapshot_hold st i b) i b = st := by
  rw [hold_eq b hl]
  rw [rele_eq_live b (hlookup_hupdate_same hl) (by simp; omega)]
  rw [hupdate_hupdate]
  cases b <;> simp [hupdate_self hl]

/-- A registry holding the single automounted snapshot `p/f@s`
(entry identity 0, pool 7, objset id 42). -/
def stOne : RState := rrun rinit [ROp.mount "p/f@s" "/p/f/.zfs/snapshot/s" 7 42]

theorem rinv_stOne : RInv stOne := rinv_rrun rinv_init _

/-! ### Claim theorems: the dual-index registry -/

/-- C1: after any sequence of registry operations (insertions by the mount
path, removals, lookups, releases, renames) starting from the empty
registry, no entry is linked in exactly one of the two trees: membership in
`zfs_snapshots_by_name` and in `zfs_snapshots_by_objsetid` coincide. -/
theorem registry_both_indices_agree (ops : List ROp) (i : EId) :
    i ∈ (rrun rinit ops).byName ↔ i ∈ (rrun rinit ops).byObjsetid :=
  (rinv_rrun rinv_init ops).both i

/-- C2: in every reachable registry state, an allocated entry that is
registered in either index has `se_refcount ≥ 1`; and dropping the last
reference (count 1, so the count reaches 0) frees the entry
(`zfsctl_snapshot_free`), so a zero count exists only for deallocated
entries. -/
theorem registry_refcount_discipline (ops : List ROp) :
    (∀ i e, hlookup (rrun rinit ops).heap i = some e →
      (i ∈ (rrun rinit ops).byName ∨ i ∈ (rrun rinit ops).byObjsetid) →
      1 ≤ e.se_refcount) ∧
    (∀ i e b, hlookup (rrun rinit ops).heap i = some e →
      e.se_refcount = 1 →
      hlookup (zfsctl_snapshot_rele (rrun rinit ops) i b).heap i = none) := by
  have inv := rinv_rrun rinv_init ops
  constructor
  · intro i e hl hreg
    have hmem : i ∈ (rrun rinit ops).byName := by
      rcases hreg with hm | hm
      · exact hm
      · exact (inv.both i).mpr hm
    have hacc := inv.account _ _ hl
    rw [if_pos hmem] at hacc
    omega
  · intro i e b hl hone
    rw [rele_eq_free b hl (by omega)]
    exact hlookup_herase_same inv.heapNodup i

theorem registry_refcount_discipline_witness :
    (1 ≤ (1 : Nat)) ∧
    hlookup (zfsctl_snapshot_rele stOne 0 false).heap 0 = none := by
  constructor
  · exact (registry_refcount_discipline
      [ROp.mount "p/f@s" "/p/f/.zfs/snapshot/s" 7 42]).1 0
      { se_name := "p/f@s", se_path := "/p/f/.zfs/snapshot/s", se_spa := 7, se_objsetid := 42, se_refcount := 1, holders := 0 }
      (by decide) (Or.inl (by decide))
  · exact (registry_refcount_discipline
      [ROp.mount "p/f@s" "/p/f/.zfs/snapshot/s" 7 42]).2 0
      { se_name := "p/f@s", se_path := "/p/f/.zfs/snapshot/s", se_spa := 7, se_objsetid := 42, se_refcount := 1, holders := 0 }
      false (by decide) (by decide)

/-- C4 as stated is false: renaming a registered snapshot to its own name
"succeeds" (returns 0), yet `find_by_name` on the old name still returns
the entry rather than NOT_FOUND. -/
theorem rename_roundtrip_counterexample :
    (zfsctl_snapshot_rename stOne "p/f@s" "p/f@s").1 = 0 ∧
    findIdByName (zfsctl_snapshot_rename stOne "p/f@s" "p/f@s").2 "p/f@s"
      = some 0 := by decide

/-- C4 amended: when the new name is not already registered (which is
forced whenever the rename actually changes the name, and rules out
`b = a`), `rename(a, b)` succeeds, `find_by_name(b)` afterwards returns
exactly the entry `find_by_name(a)` returned before, and `find_by_name(a)`
afterwards reports NOT_FOUND. -/
theorem rename_roundtrip (st : RState) (inv : RInv st) (a b : String)
    (i : EId) (hf : findIdByName st a = some i)
    (hb : findIdByName st b = none) :
    (zfsctl_snapshot_rename st a b).1 = 0 ∧
    findIdByName (zfsctl_snapshot_rename st a b).2 b = some i ∧
    findIdByName (zfsctl_snapshot_rename st a b).2 a = none := by
  obtain ⟨hin, e, hl, hname⟩ := findIdIn_some hf
  have hacc := inv.account i e hl
  rw [if_pos hin] at hacc
  have hab : a ≠ b := by
    intro hc
    rw [hc, hb] at hf
    exact Option.noConfusion hf
  rw [rename_eq b hf hl (by omega)]
  refine ⟨rfl, ?_, ?_⟩
  · show findIdIn _ (i :: st.byName.erase i) b = some i
    simp only [findIdIn, hlookup_hupdate_same hl]
    simp
  · show findIdIn _ (i :: st.byName.erase i) a = none
    simp only [findIdIn, hlookup_hupdate_same hl]
    rw [if_neg (by simpa using hab.symm)]
    apply findIdIn_eq_none
    intro j hj ej hlj
    have hji : j ≠ i := (inv.nameNodup.mem_erase_iff.mp hj).1
    have hjm : j ∈ st.byName := (inv.nameNodup.mem_erase_iff.mp hj).2
    rw [hlookup_hupdate_ne hji] at hlj
    intro hja
    exact hji (inv.uniqName j hjm i hin ej e hlj hl (hja.trans hname.symm))

theorem rename_roundtrip_witness :
    (zfsctl_snapshot_rename stOne "p/f@s" "p/f@t").1 = 0 ∧
    findIdByName (zfsctl_snapshot_rename stOne "p/f@s" "p/f@t").2 "p/f@t"
      = some 0 ∧
    findIdByName (zfsctl_snapshot_rename stOne "p/f@s" "p/f@t").2 "p/f@s"
      = none :=
  rename_roundtrip stOne rinv_stOne "p/f@s" "p/f@t" 0 (by decide) (by decide)

/-- C9: `zfsctl_snapshot_rename` re-indexes by name only.  For any
registered entry, the rename leaves the membership of every entry in the
`(pool, dataset-id)` tree unchanged, leaves every entry's `(se_spa,
se_objsetid)` key (and identity) unchanged, and also keeps the by-name
membership of every entry — only the renamed entry's name key (its position
in the by-name ordering) changes. -/
theorem rename_objsetid_frame (st : RState) (inv : RInv st) (a b : String)
    (i : EId) (hf : findIdByName st a = some i) :
    (∀ j, j ∈ (zfsctl_snapshot_rename st a b).2.byObjsetid ↔
      j ∈ st.byObjsetid) ∧
    (∀ j, j ∈ (zfsctl_snapshot_rename st a b).2.byName ↔ j ∈ st.byName) ∧
    (∀ j ej, hlookup (zfsctl_snapshot_rename st a b).2.heap j = some ej →
      ∃ ej0, hlookup st.heap j = some ej0 ∧ ej.se_spa = ej0.se_spa ∧
        ej.se_objsetid = ej0.se_objsetid) := by
  obtain ⟨hin, e, hl, hname⟩ := findIdIn_some hf
  have hio : i ∈ st.byObjsetid := (inv.both i).mp hin
  have hacc := inv.account i e hl
  rw [if_pos hin] at hacc
  rw [rename_eq b hf hl (by omega)]
  refine ⟨?_, ?_, ?_⟩
  · intro j
    show j ∈ i :: st.byObjsetid.erase i ↔ _
    simp only [List.mem_cons]
    rw [inv.objNodup.mem_erase_iff]
    constructor
    · intro hc
      rcases hc with hc | hc
      · exact hc ▸ hio
      · exact hc.2
    · intro hc
      by_cases hji : j = i
      · exact Or.inl hji
      · exact Or.inr ⟨hji, hc⟩
  · intro j
    show j ∈ i :: st.byName.erase i ↔ _
    simp only [List.mem_cons]
    rw [inv.nameNodup.mem_erase_iff]
    constructor
    · intro hc
      rcases hc with hc | hc
      · exact hc ▸ hin
      · exact hc.2
    · intro hc
      by_cases hji : j = i
      · exact Or.inl hji
      · exact Or.inr ⟨hji, hc⟩
  · intro j ej hlj
    by_cases hji : j = i
    · subst hji
      rw [hlookup_hupdate_same hl] at hlj
      cases hlj
      exact ⟨e, hl, rfl, rfl⟩
    · rw [hlookup_hupdate_ne hji] at hlj
      exact ⟨ej, hlj, rfl, rfl⟩

theorem rename_objsetid_frame_witness :
    ((0 : EId) ∈ (zfsctl_snapshot_rename stOne "p/f@s" "p/f@t").2.byObjsetid
      ↔ (0 : EId) ∈ stOne.byObjsetid) ∧
    ((0 : EId) ∈ (zfsctl_snapshot_rename stOne "p/f@s" "p/f@t").2.byName
      ↔ (0 : EId) ∈ stOne.byName) :=
  ⟨(rename_objsetid_frame stOne rinv_stOne "p/f@s" "p/f@t" 0 (by decide)).1 0,
   (rename_objsetid_frame stOne rinv_stOne "p/f@s" "p/f@t" 0 (by decide)).2.1 0⟩

/-- C7: `zfsctl_snapshot_unmount` returns `ENOENT` and leaves the registry
untouched when the name is not registered (hence repeated calls keep
returning `ENOENT` with no side effect), and when the entry exists it maps
any nonzero exit status of the external `umount` helper to `EBUSY` (again
with the registry state restored), an error distinct from `ENOENT`. -/
theorem unmount_semantics (st : RState) (inv : RInv st) (n : String)
    (helperStatus : Nat) :
    (findIdByName st n = none →
      zfsctl_snapshot_unmount st n helperStatus = (ENOENT, st)) ∧
    (∀ i, findIdByName st n = some i → helperStatus ≠ 0 →
      zfsctl_snapshot_unmount st n helperStatus = (EBUSY, st)) ∧
    EBUSY ≠ ENOENT := by
  refine ⟨?_, ?_, by decide⟩
  · intro hnone
    simp [zfsctl_snapshot_unmount, hnone]
  · intro i hf hs
    obtain ⟨hin, e, hl, hname⟩ := findIdIn_some hf
    have hacc := inv.account i e hl
    rw [if_pos hin] at hacc
    simp only [zfsctl_snapshot_unmount, hf]
    rw [rele_hold_cancel true hl (by omega), if_neg hs]

theorem unmount_semantics_witness :
    zfsctl_snapshot_unmount rinit "p/f@s" 0 = (ENOENT, rinit) ∧
    zfsctl_snapshot_unmount stOne "p/f@s" 256 = (EBUSY, stOne) :=
  ⟨(unmount_semantics rinit rinv_init "p/f@s" 0).1 (by decide),
   (unmount_semantics stOne rinv_stOne "p/f@s" 256).2.1 0 (by decide)
     (by decide)⟩

/-- C10: in the administrative remove path, the external snapshot destroy
is invoked exactly when the unmount step returned 0 (helper succeeded) or
`ENOENT` (name not registered); any other unmount error (the `EBUSY` that a
failing helper is mapped to) aborts the removal with that error and no
destroy. -/
theorem snapdir_remove_destroy_iff (st : RState) (n : String)
    (helperStatus destroyErr : Nat) :
    ((zfsctl_snapdir_remove_tail st n helperStatus destroyErr).2.1 = true ↔
      (findIdByName st n = none ∨ helperStatus = 0)) ∧
    (findIdByName st n ≠ none → helperStatus ≠ 0 →
      (zfsctl_snapdir_remove_tail st n helperStatus destroyErr).1 = EBUSY) := by
  constructor
  · cases hf : findIdByName st n with
    | none =>
        simp [zfsctl_snapdir_remove_tail, zfsctl_snapshot_unmount, hf, ENOENT]
    | some i =>
        by_cases hs : helperStatus = 0
        · simp [zfsctl_snapdir_remove_tail, zfsctl_snapshot_unmount, hf, hs]
        · simp [zfsctl_snapdir_remove_tail, zfsctl_snapshot_unmount, hf, hs,
            EBUSY, ENOENT]
  · intro hf hs
    cases hf2 : findIdByName st n with
    | none => exact absurd hf2 hf
    | some i =>
        simp [zfsctl_snapdir_remove_tail, zfsctl_snapshot_unmount, hf2, hs,
          EBUSY, ENOENT]

theorem snapdir_remove_destroy_iff_witness :
    ((zfsctl_snapdir_remove_tail stOne "p/f@s" 256 0).2.1 = true ↔
      (findIdByName stOne "p/f@s" = none ∨ (256 : Nat) = 0)) ∧
    (zfsctl_snapdir_remove_tail stOne "p/f@s" 256 0).1 = EBUSY :=
  ⟨(snapdir_remove_destroy_iff stOne "p/f@s" 256 0).1,
   (snapdir_remove_destroy_iff stOne "p/f@s" 256 0).2 (by decide) (by decide)⟩

/-! ### Claim theorems: the delayed expiry scheduler -/

/-- The one-outstanding-task invariant: the queue holds a task for this
entry only when `se_taskqid` records it, and never more than one. -/
def schedInv (s : SEntry) : Prop :=
  match s.se_taskqid with
  | none => s.pending = []
  | some t => s.pending = [] ∨ ∃ d, s.pending = [(t, d)]

theorem schedInv_init : schedInv sinit := by simp [schedInv, sinit]

theorem schedInv_step {expire : Int} {s : SEntry} (inv : schedInv s)
    (op : SOp) : schedInv (sstep expire s op) := by
  obtain ⟨tq, rc, reg, pend, nid⟩ := s
  cases op with
  | arm delay =>
      by_cases hd : delay ≤ 0
      · simpa [sstep, zfsctl_snapshot_unmount_delay_impl, hd] using inv
      · cases tq with
        | some t =>
            simpa [sstep, zfsctl_snapshot_unmount_delay_impl, hd, sHold,
              sRele] using inv
        | none =>
            have hp : pend = [] := by simpa [schedInv] using inv
            simp [sstep, zfsctl_snapshot_unmount_delay_impl, hd, sHold,
              schedInv, hp]
  | cancel =>
      cases tq with
      | none =>
          simpa [sstep, zfsctl_snapshot_unmount_cancel, taskq_cancel_id,
            schedInv, ENOENT] using inv
      | some t =>
          rcases (by simpa [schedInv] using inv :
              pend = [] ∨ ∃ d, pend = [(t, d)]) with hp | ⟨d, hp⟩
          · simp [sstep, zfsctl_snapshot_unmount_cancel, taskq_cancel_id,
              schedInv, hp, ENOENT]
          · simp [sstep, zfsctl_snapshot_unmount_cancel, taskq_cancel_id,
              schedInv, hp, sRele]
  | fire busy =>
      cases hp : pend with
      | nil => simpa [sstep, fireStep, hp] using inv
      | cons td rest =>
          obtain ⟨t0, d0⟩ := td
          cases tq with
          | none =>
              have hemp : pend = [] := by simpa [schedInv] using inv
              rw [hp] at hemp
              exact List.noConfusion hemp
          | some t =>
              rcases (by simpa [schedInv] using inv :
                  pend = [] ∨ ∃ d, pend = [(t, d)]) with h0 | ⟨d, h0⟩
              · rw [hp] at h0
                exact List.noConfusion h0
              · rw [hp] at h0
                have ht0 : (t0 = t ∧ d0 = d) ∧ rest = [] := by
                  simpa using h0
                obtain ⟨⟨hte, hde⟩, hre⟩ := ht0
                subst hte hde hre
                by_cases he : expire ≤ 0
                · simp [sstep, fireStep, hp, snapentry_expire, he, sRele,
                    schedInv]
                · cases busy with
                  | true =>
                      cases reg with
                      | true =>
                          simp [sstep, fireStep, hp, snapentry_expire, he,
                            sRele, sHold, schedInv,
                            zfsctl_snapshot_unmount_delay_impl]
                      | false =>
                          simp [sstep, fireStep, hp, snapentry_expire, he,
                            sRele, sHold, schedInv,
                            zfsctl_snapshot_unmount_delay_impl]
                  | false =>
                      simp [sstep, fireStep, hp, snapentry_expire, he,
                        sRele, sHold, schedInv,
                        zfsctl_snapshot_unmount_delay_impl]

theorem schedInv_run (expire : Int) (ops : List SOp) :
    schedInv (srun expire sinit ops) := by
  have hstep : ∀ s, schedInv s → ∀ t, schedInv (srun expire s t) := by
    intro s hs t
    induction t generalizing s with
    | nil => exact hs
    | cons op rest ih => exact ih _ (schedInv_step hs op)
  exact hstep _ schedInv_init ops

/-- C3: `zfsctl_snapshot_unmount_delay_impl` is a no-op when `delay <= 0`;
when a task is already recorded in `se_taskqid` it releases the reference it
just took and returns with the state unchanged (no second dispatch); and
along any sequence of arm / cancel / fire steps from a freshly registered
entry, at most one expiry task is ever pending. -/
theorem unmount_delay_impl_single_task :
    (∀ (s : SEntry) (delay : Int), delay ≤ 0 →
      zfsctl_snapshot_unmount_delay_impl s delay = s) ∧
    (∀ (s : SEntry) (delay : Int) (t : Nat), s.se_taskqid = some t →
      zfsctl_snapshot_unmount_delay_impl s delay = s) ∧
    (∀ (expire : Int) (ops : List SOp),
      (srun expire sinit ops).pending.length ≤ 1) := by
  refine ⟨?_, ?_, ?_⟩
  · intro s delay hd
    simp [zfsctl_snapshot_unmount_delay_impl, hd]
  · intro s delay t ht
    obtain ⟨tq, rc, reg, pend, nid⟩ := s
    cases ht
    by_cases hd : delay ≤ 0
    · simp [zfsctl_snapshot_unmount_delay_impl, hd]
    · simp [zfsctl_snapshot_unmount_delay_impl, hd, sHold, sRele]
  · intro expire ops
    have hinv := schedInv_run expire ops
    unfold schedInv at hinv
    cases ht : (srun expire sinit ops).se_taskqid with
    | none => rw [ht] at hinv; simp [hinv]
    | some t =>
        rw [ht] at hinv
        rcases hinv with hp | ⟨d, hp⟩ <;> simp [hp]

theorem unmount_delay_impl_single_task_witness :
    zfsctl_snapshot_unmount_delay_impl sinit 0 = sinit ∧
    zfsctl_snapshot_unmount_delay_impl
      (zfsctl_snapshot_unmount_delay_impl sinit 5) 9 =
      zfsctl_snapshot_unmount_delay_impl sinit 5 ∧
    (srun 5 sinit [SOp.cancel, SOp.arm 5, SOp.arm 7]).pending.length ≤ 1 :=
  ⟨unmount_delay_impl_single_task.1 sinit 0 (by decide),
   unmount_delay_impl_single_task.2.1
     (zfsctl_snapshot_unmount_delay_impl sinit 5) 9 0 (by decide),
   unmount_delay_impl_single_task.2.2 5 [SOp.cancel, SOp.arm 5, SOp.arm 7]⟩

/-- C5: `zfsctl_snapshot_unmount_cancel` always clears `se_taskqid`; the
underlying `taskq_cancel_id` succeeds (returns 0) exactly when the recorded
task is still queued; on success the pending task's reference is released;
on failure (`ENOENT`-like: task already ran or never existed) nothing but
the handle changes — no reference is released. -/
theorem unmount_cancel_semantics (s : SEntry) :
    (zfsctl_snapshot_unmount_cancel s).se_taskqid = none ∧
    ((taskq_cancel_id s).2 = 0 ↔
      ∃ t, s.se_taskqid = some t ∧ t ∈ s.pending.map Prod.fst) ∧
    ((taskq_cancel_id s).2 = 0 →
      (zfsctl_snapshot_unmount_cancel s).se_refcount = s.se_refcount - 1) ∧
    ((taskq_cancel_id s).2 ≠ 0 →
      zfsctl_snapshot_unmount_cancel s = { s with se_taskqid := none }) := by
  obtain ⟨tq, rc, reg, pend, nid⟩ := s
  cases tq with
  | none =>
      refine ⟨?_, ?_, ?_, ?_⟩ <;>
        simp [zfsctl_snapshot_unmount_cancel, taskq_cancel_id, ENOENT]
  | some t =>
      by_cases hc : t ∈ pend.map Prod.fst
      · refine ⟨?_, ?_, ?_, ?_⟩
        · simp [zfsctl_snapshot_unmount_cancel, taskq_cancel_id, hc, sRele]
        · simp only [taskq_cancel_id, if_pos hc]
          constructor
          · intro _
            exact ⟨t, rfl, hc⟩
          · intro _
            trivial
        · intro h0
          simp [zfsctl_snapshot_unmount_cancel, taskq_cancel_id, hc, sRele]
        · intro h0
          simp [taskq_cancel_id, hc] at h0
      · refine ⟨?_, ?_, ?_, ?_⟩
        · simp [zfsctl_snapshot_unmount_cancel, taskq_cancel_id, hc, ENOENT]
        · simp only [taskq_cancel_id, if_neg hc]
          constructor
          · intro h0
            simp [ENOENT] at h0
          · intro hex
            rcases hex with ⟨t2, ht2, hm⟩
            have ht2e : t = t2 := by simpa using ht2
            exact absurd (ht2e ▸ hm) hc
        · intro h0
          simp [taskq_cancel_id, hc, ENOENT] at h0
        · intro h0
          simp [zfsctl_snapshot_unmount_cancel, taskq_cancel_id, hc, ENOENT]

theorem unmount_cancel_semantics_witness :
    ((taskq_cancel_id (zfsctl_snapshot_unmount_delay_impl sinit 5)).2 = 0 →
      (zfsctl_snapshot_unmount_cancel
        (zfsctl_snapshot_unmount_delay_impl sinit 5)).se_refcount =
        (zfsctl_snapshot_unmount_delay_impl sinit 5).se_refcount - 1) ∧
    ((taskq_cancel_id sinit).2 ≠ 0 →
      zfsctl_snapshot_unmount_cancel sinit = { sinit with se_taskqid := none }) :=
  ⟨(unmount_cancel_semantics (zfsctl_snapshot_unmount_delay_impl sinit 5)).2.2.1,
   (unmount_cancel_semantics sinit).2.2.2⟩

/-- C6: when the expiry callback runs with expiry enabled on a pending
task, it removes the task from the queue, clears `se_taskqid`, attempts the
unmount, and: if the helper reported busy (entry still registered, found
again by `(spa, objsetid)`) it re-arms a fresh expiry task with the same
base delay `zfs_expire_snapshot`, keeping the reference count balanced; if
the unmount succeeded (entry removed from the registry) it does not re-arm
and the handle stays cleared.  The unmount's error is discarded by the
callback (`snapentry_expire` returns no error), never propagated. -/
theorem snapentry_expire_busy_rearms (expire : Int) (s : SEntry) (t : Nat)
    (d : Int) (rest : List (Nat × Int)) (hpos : 0 < expire)
    (hp : s.pending = (t, d) :: rest) (hreg : s.registered = true)
    (hrc : 1 ≤ s.se_refcount) :
    (fireStep expire true s).registered = true ∧
    (fireStep expire true s).se_taskqid = some s.nextTaskId ∧
    (fireStep expire true s).pending = rest ++ [(s.nextTaskId, expire)] ∧
    (fireStep expire true s).se_refcount = s.se_refcount ∧
    (fireStep expire false s).registered = false ∧
    (fireStep expire false s).se_taskqid = none ∧
    (fireStep expire false s).pending = rest := by
  have hne : ¬(expire ≤ 0) := by omega
  simp only [fireStep, hp, snapentry_expire, if_neg hne,
    zfsctl_snapshot_unmount_delay_impl, sRele, sHold]
  simp [hreg, if_neg hne]
  omega

theorem snapentry_expire_busy_rearms_witness :
    (fireStep 5 true (zfsctl_snapshot_unmount_delay_impl sinit 5)).registered
      = true ∧
    (fireStep 5 true (zfsctl_snapshot_unmount_delay_impl sinit 5)).pending
      = [] ++ [((zfsctl_snapshot_unmount_delay_impl sinit 5).nextTaskId, 5)] ∧
    (fireStep 5 false (zfsctl_snapshot_unmount_delay_impl sinit 5)).registered
      = false :=
  ⟨(snapentry_expire_busy_rearms 5 (zfsctl_snapshot_unmount_delay_impl sinit 5)
      0 5 [] (by decide) (by decide) (by decide) (by decide)).1,
   (snapentry_expire_busy_rearms 5 (zfsctl_snapshot_unmount_delay_impl sinit 5)
      0 5 [] (by decide) (by decide) (by decide) (by decide)).2.2.1,
   (snapentry_expire_busy_rearms 5 (zfsctl_snapshot_unmount_delay_impl sinit 5)
      0 5 [] (by decide) (by decide) (by decide) (by decide)).2.2.2.2.1⟩

/-! ### Claim theorems: concurrent automount (`zfsctl_snapshot_mount`) -/

/-- Boolean test for a finished thread. -/
def isDoneB : TPc → Bool
  | .done _ => true
  | _ => false

theorem countP_set_of_get {l : List TPc} {t : Nat} {y : TPc}
    (h : l.get? t = some y) (x : TPc) (p : TPc → Bool) :
    (l.set t x).countP p + (if p y then 1 else 0) =
      l.countP p + (if p x then 1 else 0) := by
  induction l generalizing t with
  | nil => simp [List.get?] at h
  | cons a l ih =>
      cases t with
      | zero =>
          simp only [List.get?] at h
          cases h
          simp only [List.set, List.countP_cons]
          omega
      | succ t =>
          simp only [List.get?] at h
          simp only [List.set, List.countP_cons]
          have := ih h
          omega

theorem countNotDone_set_done {l : List TPc} {t : Nat} {y : TPc}
    (h : l.get? t = some y) (hy : isDoneB y = false) :
    (l.set t (TPc.done 0)).countP (fun pc => !(isDoneB pc)) + 1 =
      l.countP (fun pc => !(isDoneB pc)) := by
  have hcnt := countP_set_of_get h (TPc.done 0) (fun pc => !(isDoneB pc))
  rw [hy] at hcnt
  rw [show (if (!false) = true then 1 else 0) = 1 from rfl] at hcnt
  rw [show (if (!(isDoneB (TPc.done 0))) = true then 1 else 0) = 0 from rfl] at hcnt
  omega

theorem countNotDone_set_mounting {l : List TPc} {t : Nat}
    (h : l.get? t = some TPc.ready) :
    (l.set t TPc.mounting).countP (fun pc => !(isDoneB pc)) =
      l.countP (fun pc => !(isDoneB pc)) := by
  have hcnt := countP_set_of_get h TPc.mounting (fun pc => !(isDoneB pc))
  rw [show (if (!(isDoneB TPc.ready)) = true then 1 else 0) = 1 from rfl] at hcnt
  rw [show (if (!(isDoneB TPc.mounting)) = true then 1 else 0) = 1 from rfl] at hcnt
  omega

/-- Invariant of the mount race: every finished call returned success, the
helper mounted at most once (exactly once as soon as the mountpoint is
busy), registration implies a completed mount, a finished thread implies
the mount happened, and the helper is invoked at most once per thread. -/
structure MInv (n : Nat) (m : MountRace) : Prop where
  len : m.threads.length = n
  mounts_eq : m.helperMounts = (if m.osMounted then 1 else 0)
  reg_imp : m.registered = true → m.osMounted = true
  done_imp : ∀ pc ∈ m.threads, isDoneB pc = true → m.osMounted = true
  done_ok : ∀ pc ∈ m.threads, ∀ e, pc = TPc.done e → e = 0
  calls_bound : m.helperCalls +
    m.threads.countP (fun pc => !(isDoneB pc)) ≤ n

theorem minv_init (n : Nat) : MInv n (minit n) := by
  refine ⟨?_, ?_, ?_, ?_, ?_, ?_⟩
  · simp [minit]
  · simp [minit]
  · simp [minit]
  · intro pc hm hd
    rw [List.eq_of_mem_replicate hm] at hd
    simp [isDoneB] at hd
  · intro pc hm e he
    rw [List.eq_of_mem_replicate hm] at he
    exact TPc.noConfusion he
  · simp only [minit]
    rw [List.countP_eq_length_filter, List.filter_replicate]
    simp [isDoneB]

theorem minv_step {n : Nat} {m : MountRace} (inv : MInv n m) (t : Nat) :
    MInv n (mountStep m t) := by
  cases hg : m.threads.get? t with
  | none => simpa only [mountStep, hg] using inv
  | some pc =>
      cases pc with
      | ready =>
          by_cases hr : m.registered
          · have hos := inv.reg_imp hr
            refine ⟨?_, ?_, ?_, ?_, ?_, ?_⟩ <;>
              simp only [mountStep, hg, if_pos hr]
            · rw [List.length_set]; exact inv.len
            · exact inv.mounts_eq
            · intro _; exact hos
            · intro pc2 hm2 hd2
              exact hos
            · intro pc2 hm2 e he
              rcases List.mem_or_eq_of_mem_set hm2 with hm2 | hm2
              · exact inv.done_ok pc2 hm2 e he
              · rw [hm2] at he
                cases he
                rfl
            · have hcnt := countNotDone_set_done hg rfl
              have hb := inv.calls_bound
              omega
          · refine ⟨?_, ?_, ?_, ?_, ?_, ?_⟩ <;>
              simp only [mountStep, hg, if_neg hr]
            · rw [List.length_set]; exact inv.len
            · exact inv.mounts_eq
            · exact inv.reg_imp
            · intro pc2 hm2 hd2
              rcases List.mem_or_eq_of_mem_set hm2 with hm2 | hm2
              · exact inv.done_imp pc2 hm2 hd2
              · rw [hm2] at hd2
                simp [isDoneB] at hd2
            · intro pc2 hm2 e he
              rcases List.mem_or_eq_of_mem_set hm2 with hm2 | hm2
              · exact inv.done_ok pc2 hm2 e he
              · rw [hm2] at he
                exact TPc.noConfusion he
            · have hcnt := countNotDone_set_mounting hg
              have hb := inv.calls_bound
              omega
      | mounting =>
          by_cases ho : m.osMounted
          · refine ⟨?_, ?_, ?_, ?_, ?_, ?_⟩ <;>
              simp only [mountStep, hg, if_pos ho]
            · rw [List.length_set]; exact inv.len
            · rw [inv.mounts_eq, if_pos ho]
            · intro _; exact ho
            · intro pc2 hm2 hd2
              exact ho
            · intro pc2 hm2 e he
              rcases List.mem_or_eq_of_mem_set hm2 with hm2 | hm2
              · exact inv.done_ok pc2 hm2 e he
              · rw [hm2] at he
                cases he
                rfl
            · have hcnt := countNotDone_set_done hg rfl
              have hb := inv.calls_bound
              omega
          · refine ⟨?_, ?_, ?_, ?_, ?_, ?_⟩ <;>
              simp only [mountStep, hg, if_neg ho]
            · rw [List.length_set]; exact inv.len
            · have hm := inv.mounts_eq
              rw [if_neg ho] at hm
              simp [hm]
            · intro _
              trivial
            · intro pc2 hm2 hd2
              trivial
            · intro pc2 hm2 e he
              rcases List.mem_or_eq_of_mem_set hm2 with hm2 | hm2
              · exact inv.done_ok pc2 hm2 e he
              · rw [hm2] at he
                cases he
                rfl
            · have hcnt := countNotDone_set_done hg rfl
              have hb := inv.calls_bound
              omega
      | done e => simpa only [mountStep, hg] using inv

theorem minv_run (n : Nat) (sched : List Nat) :
    MInv n (mountRun (minit n) sched) := by
  have hstep : ∀ m, MInv n m → ∀ rest, MInv n (mountRun m rest) := by
    intro m hm rest
    induction rest generalizing m with
    | nil => exact hm
    | cons t rest ih => exact ih _ (minv_step hm t)
  exact hstep _ (minv_init n) sched

/-- C8 as stated is false on the code: the `zfsctl_snapshot_ismounted`
check and the helper invocation are not covered by one lock, so with two
threads racing (check, check, helper, helper) the external mount helper is
invoked TWICE — the second invocation finds the mountpoint busy and its
`MOUNT_BUSY` status is absorbed — while both calls return success. -/
theorem mount_race_counterexample :
    (mountRun (minit 2) [0, 1, 0, 1]).helperCalls = 2 ∧
    (mountRun (minit 2) [0, 1, 0, 1]).threads = [TPc.done 0, TPc.done 0] := by
  decide

/-- C8 amended: under every interleaving of N threads racing
`zfsctl_snapshot_mount` for the same not-yet-mounted name, every completed
call returns success, at most one helper invocation performs the actual
mount (the remaining invocations report busy, which the code absorbs), the
helper is invoked at most once per thread (so between 1 and N times in a
completed run, not exactly once), and once every thread has finished,
exactly one mount has been performed. -/
theorem mount_race_serialization (sched : List Nat) (n : Nat) :
    (∀ pc ∈ (mountRun (minit n) sched).threads, ∀ e, pc = TPc.done e →
      e = 0) ∧
    (mountRun (minit n) sched).helperMounts ≤ 1 ∧
    (mountRun (minit n) sched).helperCalls ≤ n ∧
    ((∀ pc ∈ (mountRun (minit n) sched).threads, isDoneB pc = true) →
      1 ≤ n → (mountRun (minit n) sched).helperMounts = 1) := by
  have inv := minv_run n sched
  refine ⟨inv.done_ok, ?_, ?_, ?_⟩
  · rw [inv.mounts_eq]
    by_cases ho : (mountRun (minit n) sched).osMounted <;> simp [ho]
  · have := inv.calls_bound
    omega
  · intro hall hn
    have hlen := inv.len
    have hne : (mountRun (minit n) sched).threads ≠ [] := by
      intro hc
      rw [hc] at hlen
      simp at hlen
      omega
    obtain ⟨pc0, hmem⟩ := List.exists_mem_of_ne_nil _ hne
    have hos := inv.done_imp pc0 hmem (hall pc0 hmem)
    rw [inv.mounts_eq, if_pos hos]

theorem mount_race_serialization_witness :
    (∀ pc ∈ (mountRun (minit 2) [0, 1, 0, 1]).threads, ∀ e,
      pc = TPc.done e → e = 0) ∧
    ((∀ pc ∈ (mountRun (minit 2) [0, 1, 0, 1]).threads, isDoneB pc = true) →
      1 ≤ 2 → (mountRun (minit 2) [0, 1, 0, 1]).helperMounts = 1) :=
  ⟨(mount_race_serialization [0, 1, 0, 1] 2).1,
   (mount_race_serialization [0, 1, 0, 1] 2).2.2.2⟩

end ZfsCtl
